import Mathlib

/-!
# Verification of the AutoCritique reflection agent

A shallow embedding of `agent copy/reflection_agent.py` (the `ReflectionAgent`
class): the reflection `run` loop, the `_should_stop` stop-condition check, the
`_call_model` response-text extraction, the `extract_code_blocks` fenced-block
extractor, and the `verify_code` heuristic code verifier.

Modelling conventions:
* Python strings are Lean `String`s / `List Char`; the Python `str.strip`,
  `str.lower`, `str.splitlines` and the `in` substring operator are embedded
  over ASCII text as `pyStripL`, `pyLowerL`, `splitlinesL`, `isSubL`.
* A parsed code payload is a `PyCode`: either a syntax error or the statement
  tree the verifier inspects.  Run-time behaviour that the source obtains by
  `exec`-ing the payload (the created namespace, the semantics of the defined
  functions) is carried on the tree itself: a `functionDef` node carries the
  function it evaluates to, a `simple` statement carries its effect on the
  module namespace.  Python exceptions are explicit (`CallResult.exc`,
  `ExecOutcome.raises`).
* Recursions that the source drives by a work queue (`ast.walk`) or by a regex
  scan are given exact fuel (`listSize`, input length); the fuel is always
  sufficient, which the accompanying lemmas prove.
* `verbose` printing and `time.sleep` in `run` have no effect on the returned
  result and are omitted from the model.
-/

namespace AutoCritique

/-! ## Python string primitives -/

/-- ASCII lower-casing, as `str.lower` acts on the ASCII texts involved. -/
def pyToLower (c : Char) : Char :=
  if c = 'A' then 'a' else if c = 'B' then 'b' else if c = 'C' then 'c'
  else if c = 'D' then 'd' else if c = 'E' then 'e' else if c = 'F' then 'f'
  else if c = 'G' then 'g' else if c = 'H' then 'h' else if c = 'I' then 'i'
  else if c = 'J' then 'j' else if c = 'K' then 'k' else if c = 'L' then 'l'
  else if c = 'M' then 'm' else if c = 'N' then 'n' else if c = 'O' then 'o'
  else if c = 'P' then 'p' else if c = 'Q' then 'q' else if c = 'R' then 'r'
  else if c = 'S' then 's' else if c = 'T' then 't' else if c = 'U' then 'u'
  else if c = 'V' then 'v' else if c = 'W' then 'w' else if c = 'X' then 'x'
  else if c = 'Y' then 'y' else if c = 'Z' then 'z' else c

/-- `str.lower` on a character list. -/
def pyLowerL (l : List Char) : List Char := l.map pyToLower

/-- The whitespace characters stripped by `str.strip()` / matched by `\s`
(ASCII range). -/
def pyIsSpace (c : Char) : Bool :=
  c = ' ' ∨ c = '\t' ∨ c = '\n' ∨ c = '\r' ∨ c = '\x0b' ∨ c = '\x0c'

/-- `str.strip()` on a character list: drop whitespace from both ends. -/
def pyStripL (l : List Char) : List Char :=
  ((l.dropWhile pyIsSpace).reverse.dropWhile pyIsSpace).reverse

/-- The Python substring test `pat in l`. -/
def isSubL (pat : List Char) : List Char → Bool
  | [] => pat.isEmpty
  | c :: t => pat.isPrefixOf (c :: t) || isSubL pat (t)

/-- Line terminators recognised by `str.splitlines` (ASCII range). -/
def isLineBreak (c : Char) : Bool :=
  c = '\n' ∨ c = '\r' ∨ c = '\x0b' ∨ c = '\x0c' ∨ c = '\x1c' ∨ c = '\x1d' ∨ c = '\x1e'

/-- Split off the first line: returns the line and the remainder after its
terminator, treating `"\r\n"` as a single terminator, as `str.splitlines`
does. -/
def takeLine : List Char → List Char × List Char
  | [] => ([], [])
  | c :: t =>
      if isLineBreak c then
        ([], if c = '\r' ∧ t.head? = some '\n' then t.tail else t)
      else
        let p := takeLine t
        (c :: p.1, p.2)

theorem takeLine_rest_length (l : List Char) : (takeLine l).2.length ≤ l.length := by
  induction l with
  | nil => simp [takeLine]
  | cons c t ih =>
      simp only [takeLine]
      split
      · split
        · exact Nat.le_succ_of_le (Nat.le_trans (List.length_tail t ▸ Nat.sub_le _ _) le_rfl)
        · exact Nat.le_succ _
      · simpa using Nat.le_succ_of_le ih

/-- `str.splitlines`, driven by an explicit fuel (one unit per produced line
suffices since every produced line consumes at least one character). -/
def splitlinesAux : Nat → List Char → List (List Char)
  | _, [] => []
  | 0, _ :: _ => []
  | fuel + 1, c :: t =>
      let p := takeLine (c :: t)
      p.1 :: splitlinesAux fuel p.2

/-- `str.splitlines` on a character list.  `splitlinesL [] = []` as in Python. -/
def splitlinesL (l : List Char) : List (List Char) := splitlinesAux l.length l

/-! ## `_should_stop` (named `_should_stop` in the source) -/

/-- The `ReflectionAgent._should_stop` static method: empty critique text never
stops; otherwise look for `"<ok>"` in the stripped lower-cased text (the
source's local variable `lowered`, inlined here), compare that same text with
`"ok"`, and finally scan the individual lines of the original text. -/
def should_stop (critique_text : String) : Bool :=
  if critique_text.data = [] then false
  else if isSubL "<ok>".data (pyLowerL (pyStripL critique_text.data)) then true
  else if pyLowerL (pyStripL critique_text.data) = "ok".data then true
  else (splitlinesL critique_text.data).any (fun line => pyLowerL (pyStripL line) = "ok".data)

/-! ### Substring facts used to characterise `should_stop` -/

theorem isPrefixOf_eq_true_iff (p l : List Char) :
    p.isPrefixOf l = true ↔ ∃ v, l = p ++ v := by
  induction p generalizing l with
  | nil => simp [List.isPrefixOf]
  | cons a p' ih =>
      cases l with
      | nil => simp [List.isPrefixOf]
      | cons b l' =>
          simp only [List.isPrefixOf, Bool.and_eq_true, beq_iff_eq, ih, List.cons_append]
          constructor
          · rintro ⟨rfl, v, rfl⟩; exact ⟨v, rfl⟩
          · rintro ⟨v, h⟩
            rcases List.cons_eq_cons.mp h with ⟨rfl, h2⟩
            exact ⟨rfl, v, h2⟩

theorem isSubL_iff_exists (pat l : List Char) :
    isSubL pat l = true ↔ ∃ u v, l = u ++ pat ++ v := by
  induction l with
  | nil =>
      simp only [isSubL, List.isEmpty_iff]
      constructor
      · rintro rfl; exact ⟨[], [], rfl⟩
      · rintro ⟨u, v, h⟩
        rcases List.append_eq_nil.mp h.symm with ⟨h1, -⟩
        exact (List.append_eq_nil.mp h1).2
  | cons c t ih =>
      simp only [isSubL, Bool.or_eq_true, ih, isPrefixOf_eq_true_iff]
      constructor
      · rintro (⟨v, hv⟩ | ⟨u, v, rfl⟩)
        · exact ⟨[], v, by simpa using hv⟩
        · exact ⟨c :: u, v, rfl⟩
      · rintro ⟨u, v, h⟩
        cases u with
        | nil => exact Or.inl ⟨v, by simpa using h⟩
        | cons a u' =>
            rcases List.cons_eq_cons.mp (by simpa using h) with ⟨rfl, h2⟩
            exact Or.inr ⟨u', v, by rw [List.append_assoc]; exact h2⟩

theorem bool_eq_of_iff {a b : Bool} (h : (a = true) ↔ (b = true)) : a = b := by
  cases a <;> cases b <;> simp_all

theorem isSubL_reverse_eq (pat l : List Char) :
    isSubL pat.reverse l.reverse = isSubL pat l := by
  apply bool_eq_of_iff
  rw [isSubL_iff_exists, isSubL_iff_exists]
  constructor
  · rintro ⟨u, v, hv⟩
    refine ⟨v.reverse, u.reverse, ?_⟩
    have h := congrArg List.reverse hv
    simpa [List.reverse_append, List.append_assoc] using h
  · rintro ⟨u, v, rfl⟩
    exact ⟨v.reverse, u.reverse, by simp [List.reverse_append, List.append_assoc]⟩

theorem isSubL_reverse_right (pat y : List Char) :
    isSubL pat y.reverse = isSubL pat.reverse y := by
  have h := isSubL_reverse_eq pat.reverse y
  simpa using h

theorem isSubL_allspace_append (pat u r : List Char)
    (hne : pat ≠ []) (hpat : ∀ c ∈ pat, pyIsSpace c = false)
    (hu : ∀ c ∈ u, pyIsSpace c = true) :
    isSubL pat (u ++ r) = isSubL pat r := by
  induction u with
  | nil => rfl
  | cons c u' ih =>
      have hc : pyIsSpace c = true := hu c (by simp)
      have hu' : ∀ x ∈ u', pyIsSpace x = true := fun x hx => hu x (by simp [hx])
      have hpre : pat.isPrefixOf (c :: (u' ++ r)) = false := by
        cases pat with
        | nil => exact absurd rfl hne
        | cons p0 pt =>
            have hp0 : pyIsSpace p0 = false := hpat p0 (by simp)
            have hne0 : ¬(p0 = c) := by
              intro h; rw [h, hc] at hp0; cases hp0
            simp [List.isPrefixOf, hne0]
      simp [isSubL, hpre, ih hu']

theorem mem_takeWhile_space {x : List Char} {c : Char}
    (h : c ∈ x.takeWhile pyIsSpace) : pyIsSpace c = true := by
  induction x with
  | nil => simp [List.takeWhile] at h
  | cons a t ih =>
      rw [List.takeWhile_cons] at h
      by_cases ha : pyIsSpace a
      · rw [if_pos ha] at h
        rcases List.mem_cons.mp h with rfl | h2
        · exact ha
        · exact ih h2
      · rw [if_neg ha] at h; cases h

theorem isSubL_append_allspace (pat m w : List Char)
    (hne : pat ≠ []) (hpat : ∀ c ∈ pat, pyIsSpace c = false)
    (hw : ∀ c ∈ w, pyIsSpace c = true) :
    isSubL pat (m ++ w) = isSubL pat m := by
  rw [← isSubL_reverse_eq pat (m ++ w), List.reverse_append,
      isSubL_allspace_append pat.reverse w.reverse m.reverse
        (by simpa using hne)
        (fun c hc => hpat c (List.mem_reverse.mp hc))
        (fun c hc => hw c (List.mem_reverse.mp hc)),
      isSubL_reverse_eq]

/-- `str.strip` decomposition: the original text is an all-whitespace margin,
the stripped core, and another all-whitespace margin. -/
theorem strip_decomposition (l : List Char) :
    ∃ u w, (∀ c ∈ u, pyIsSpace c = true) ∧ (∀ c ∈ w, pyIsSpace c = true) ∧
      l = u ++ pyStripL l ++ w := by
  refine ⟨l.takeWhile pyIsSpace,
          ((l.dropWhile pyIsSpace).reverse.takeWhile pyIsSpace).reverse,
          fun c hc => mem_takeWhile_space hc,
          fun c hc => mem_takeWhile_space (List.mem_reverse.mp hc), ?_⟩
  unfold pyStripL
  conv_lhs => rw [← List.takeWhile_append_dropWhile (p := pyIsSpace) (l := l)]
  rw [List.append_assoc]
  congr 1
  conv_lhs =>
    rw [← List.reverse_reverse (l.dropWhile pyIsSpace),
        ← List.takeWhile_append_dropWhile
          (p := pyIsSpace) (l := (l.dropWhile pyIsSpace).reverse),
        List.reverse_append]

theorem pyToLower_space_fixed {c : Char} (h : pyIsSpace c = true) : pyToLower c = c := by
  unfold pyIsSpace at h
  rw [decide_eq_true_eq] at h
  rcases h with rfl | rfl | rfl | rfl | rfl | rfl <;> decide

theorem pyLowerL_allspace {u : List Char} (h : ∀ c ∈ u, pyIsSpace c = true) :
    pyLowerL u = u := by
  induction u with
  | nil => rfl
  | cons c t ih =>
      unfold pyLowerL at *
      rw [List.map_cons, pyToLower_space_fixed (h c (by simp)),
          ih (fun x hx => h x (by simp [hx]))]

theorem pyLowerL_append (a b : List Char) :
    pyLowerL (a ++ b) = pyLowerL a ++ pyLowerL b := by
  unfold pyLowerL; exact List.map_append _ _ _

theorem sub_ok_strip (l : List Char) :
    isSubL "<ok>".data (pyLowerL (pyStripL l)) = isSubL "<ok>".data (pyLowerL l) := by
  obtain ⟨u, w, hu, hw, hdec⟩ := strip_decomposition l
  conv_rhs => rw [hdec]
  rw [pyLowerL_append, pyLowerL_append, pyLowerL_allspace hu, pyLowerL_allspace hw,
      isSubL_append_allspace _ _ _ (by decide) (by decide) hw,
      isSubL_allspace_append _ _ _ (by decide) (by decide) hu]

/-- C4: `_should_stop(critique_text)` returns true if and only if,
case-insensitively, the critique text contains the literal approval marker
`"<OK>"` anywhere, or its trimmed full text equals `"ok"`, or some single line
(after trimming and lowercasing) equals exactly `"ok"`; the empty critique
text never signals approval, and `"Looks fine, but needs work"` does not
trigger a stop. -/
theorem should_stop_characterization :
    (∀ s : String, should_stop s = true ↔
        (isSubL "<ok>".data (pyLowerL s.data) = true ∨
         pyLowerL (pyStripL s.data) = "ok".data ∨
         ∃ line ∈ splitlinesL s.data, pyLowerL (pyStripL line) = "ok".data)) ∧
    should_stop "" = false ∧
    should_stop "Looks fine, but needs work" = false := by
  refine ⟨fun s => ?_, by decide, by decide⟩
  unfold should_stop
  by_cases hempty : s.data = []
  · rw [if_pos hempty]
    simp only [hempty]
    constructor
    · intro h; cases h
    · rintro (h | h | h)
      · exact absurd h (by decide)
      · exact absurd h (by decide)
      · obtain ⟨line, hl, -⟩ := h
        revert hl
        rw [show splitlinesL [] = [] from rfl]
        simp
  · rw [if_neg hempty]
    by_cases hA : isSubL "<ok>".data (pyLowerL (pyStripL s.data)) = true
    · rw [if_pos hA]
      constructor
      · intro _
        exact Or.inl (by rw [← sub_ok_strip]; exact hA)
      · intro _; rfl
    · rw [if_neg hA]
      by_cases hB : pyLowerL (pyStripL s.data) = "ok".data
      · rw [if_pos hB]
        constructor
        · intro _; exact Or.inr (Or.inl hB)
        · intro _; rfl
      · rw [if_neg hB]
        simp only [List.any_eq_true, decide_eq_true_eq]
        constructor
        · rintro ⟨line, hline, hp⟩
          exact Or.inr (Or.inr ⟨line, hline, hp⟩)
        · rintro (h | h | h)
          · rw [sub_ok_strip] at hA
            exact absurd h hA
          · exact absurd h hB
          · exact h

/-! ## The reflection loop `ReflectionAgent.run`

The ChatClient behind `_call_model` is abstracted as a (possibly stateful)
function from a message list to the returned text: `callModel : σ → List
Message → String × σ`.  `verbose` printing and `time.sleep` do not affect the
returned result and are omitted. -/

/-- One entry of a message transcript (a Python dict with `role`/`content`). -/
structure Message where
  role : String
  content : String
deriving DecidableEq

/-- One loop round, as appended to `rounds` by `run`. -/
structure Round where
  generation_text : String
  critique_text : String
  step : Nat
deriving DecidableEq

/-- The structured result returned by `run`. -/
structure RunResult where
  final_assistant : String
  rounds : List Round
  generation_history : List Message
deriving DecidableEq

/-- The body of `run`'s `for step in range(1, n_steps + 1)` loop: `remaining`
counts the iterations left, `step` is the 1-based index of the next iteration,
`fin` is the current value of the local `final_assistant`. -/
def runAux {σ : Type} (callModel : σ → List Message → String × σ)
    (stop_on_ok : Bool) (reflection_system_prompt : String) :
    Nat → Nat → σ → List Message → List Round → String → RunResult
  | 0, _, _, genHist, rounds, fin => ⟨fin, rounds, genHist⟩
  | remaining + 1, step, st, genHist, rounds, _ =>
      let gen := callModel st genHist
      let hist1 := genHist ++ [⟨"assistant", gen.1⟩]
      let reflHist : List Message :=
        [⟨"system", reflection_system_prompt⟩, ⟨"user", gen.1⟩]
      let crit := callModel gen.2 reflHist
      let hist2 := hist1 ++ [⟨"user", crit.1⟩]
      let rounds1 := rounds ++ [⟨gen.1, crit.1, step⟩]
      if stop_on_ok ∧ should_stop crit.1 then
        ⟨gen.1, rounds1, hist2⟩
      else
        runAux callModel stop_on_ok reflection_system_prompt
          remaining (step + 1) crit.2 hist2 rounds1 gen.1

/-- `ReflectionAgent.run`: `n_steps` is a Python int; `range(1, n_steps + 1)`
has `max 0 n_steps = n_steps.toNat` elements. -/
def run {σ : Type} (callModel : σ → List Message → String × σ)
    (stop_on_ok : Bool) (st : σ)
    (user_msg generation_system_prompt reflection_system_prompt : String)
    (n_steps : Int) : RunResult :=
  runAux callModel stop_on_ok reflection_system_prompt n_steps.toNat 1 st
    [⟨"system", generation_system_prompt⟩, ⟨"user", user_msg⟩] [] ""

theorem runAux_final_eq_last {σ : Type} (cm : σ → List Message → String × σ)
    (so : Bool) (rp : String) :
    ∀ (remaining step : Nat) (st : σ) (genHist : List Message)
      (rounds : List Round) (fin : String),
      (∀ r, rounds.getLast? = some r → fin = r.generation_text) →
      ∀ r, (runAux cm so rp remaining step st genHist rounds fin).rounds.getLast? = some r →
        (runAux cm so rp remaining step st genHist rounds fin).final_assistant =
          r.generation_text := by
  intro remaining
  induction remaining with
  | zero => intro step st genHist rounds fin hinv r hr; exact hinv r hr
  | succ n ih =>
      intro step st genHist rounds fin hinv r hr
      simp only [runAux] at hr ⊢
      split at hr
      next hcond =>
        rw [if_pos hcond]
        simp only [List.getLast?_concat, Option.some_inj] at hr
        rw [← hr]
      next hcond =>
        rw [if_neg hcond]
        refine ih _ _ _ _ _ ?_ r hr
        intro r' hr'
        rw [List.getLast?_concat, Option.some_inj] at hr'
        rw [← hr']

/-- C5: whenever a run records at least one round, `final_assistant` equals the
generation text of the last recorded round (including early-stopped runs). -/
theorem final_assistant_eq_last_round {σ : Type}
    (cm : σ → List Message → String × σ) (so : Bool) (st : σ)
    (um gp rp : String) (n : Int) (r : Round)
    (h : (run cm so st um gp rp n).rounds.getLast? = some r) :
    (run cm so st um gp rp n).final_assistant = r.generation_text := by
  exact runAux_final_eq_last cm so rp n.toNat 1 st _ [] ""
    (by intro r' hr'; cases hr') r h

theorem final_assistant_eq_last_round_witness :
    (run (fun (u : Unit) (_ : List Message) => ("done <OK>", u)) true ()
        "task" "genprompt" "reflprompt" 3).final_assistant =
      Round.generation_text ⟨"done <OK>", "done <OK>", 1⟩ :=
  final_assistant_eq_last_round _ true () "task" "genprompt" "reflprompt" 3
    ⟨"done <OK>", "done <OK>", 1⟩ (by decide)

theorem runAux_rounds_ext {σ : Type} (cm : σ → List Message → String × σ)
    (so : Bool) (rp : String) :
    ∀ (remaining step : Nat) (st : σ) (genHist : List Message)
      (rounds : List Round) (fin : String),
      ∃ ext : List Round,
        (runAux cm so rp remaining step st genHist rounds fin).rounds = rounds ++ ext ∧
        ext.map Round.step = List.range' step ext.length ∧
        ext.length ≤ remaining := by
  intro remaining
  induction remaining with
  | zero =>
      intro step st genHist rounds fin
      exact ⟨[], by simp [runAux], by simp, by simp⟩
  | succ n ih =>
      intro step st genHist rounds fin
      simp only [runAux]
      split
      next hcond =>
        refine ⟨[⟨(cm st genHist).1,
          (cm (cm st genHist).2
            [⟨"system", rp⟩, ⟨"user", (cm st genHist).1⟩]).1, step⟩],
          by simp, by simp, by simp⟩
      next hcond =>
        obtain ⟨ext, h1, h2, h3⟩ := ih (step + 1)
          (cm (cm st genHist).2 [⟨"system", rp⟩, ⟨"user", (cm st genHist).1⟩]).2
          (genHist ++ [⟨"assistant", (cm st genHist).1⟩] ++
            [⟨"user", (cm (cm st genHist).2
              [⟨"system", rp⟩, ⟨"user", (cm st genHist).1⟩]).1⟩])
          (rounds ++ [⟨(cm st genHist).1,
            (cm (cm st genHist).2
              [⟨"system", rp⟩, ⟨"user", (cm st genHist).1⟩]).1, step⟩])
          (cm st genHist).1
        refine ⟨⟨(cm st genHist).1,
          (cm (cm st genHist).2
            [⟨"system", rp⟩, ⟨"user", (cm st genHist).1⟩]).1, step⟩ :: ext,
          ?_, ?_, ?_⟩
        · rw [h1, List.append_assoc, List.singleton_append]
        · rw [List.map_cons, h2, List.length_cons, List.range'_succ]
        · simpa using Nat.succ_le_succ h3

/-- C6: for every `n_steps ≥ 1` and every ChatClient, the run records at most
`n_steps` rounds, and the `step` fields of the recorded rounds are exactly
`1, 2, ..., k` in iteration order. -/
theorem rounds_step_indices {σ : Type} (cm : σ → List Message → String × σ)
    (so : Bool) (st : σ) (um gp rp : String) (n : Int) (_hn : 1 ≤ n) :
    (run cm so st um gp rp n).rounds.length ≤ n.toNat ∧
    (run cm so st um gp rp n).rounds.map Round.step =
      List.range' 1 (run cm so st um gp rp n).rounds.length := by
  obtain ⟨ext, h1, h2, h3⟩ := runAux_rounds_ext cm so rp n.toNat 1 st
    [⟨"system", gp⟩, ⟨"user", um⟩] [] ""
  unfold run
  rw [h1, List.nil_append]
  exact ⟨h3, h2⟩

theorem rounds_step_indices_witness :
    (run (fun (u : Unit) (_ : List Message) => ("text", u)) true ()
        "task" "genprompt" "reflprompt" 2).rounds.length ≤ (2 : Int).toNat ∧
    (run (fun (u : Unit) (_ : List Message) => ("text", u)) true ()
        "task" "genprompt" "reflprompt" 2).rounds.map Round.step =
      List.range' 1 (run (fun (u : Unit) (_ : List Message) => ("text", u)) true ()
        "task" "genprompt" "reflprompt" 2).rounds.length :=
  rounds_step_indices _ true () "task" "genprompt" "reflprompt" 2 (by decide)

/-- C9: a run with `n_steps ≤ 0` never executes the loop body: the result is
the empty `final_assistant`, no rounds, and a history holding exactly the
system message with the generation prompt and the user message with the task. -/
theorem run_nonpositive_steps {σ : Type} (cm : σ → List Message → String × σ)
    (so : Bool) (st : σ) (um gp rp : String) (n : Int) (hn : n ≤ 0) :
    run cm so st um gp rp n =
      ⟨"", [], [⟨"system", gp⟩, ⟨"user", um⟩]⟩ := by
  unfold run
  rw [Int.toNat_of_nonpos hn]
  rfl

theorem run_nonpositive_steps_witness :
    run (fun (u : Unit) (_ : List Message) => ("text", u)) true ()
        "task" "genprompt" "reflprompt" (-1) =
      ⟨"", [], [⟨"system", "genprompt"⟩, ⟨"user", "task"⟩]⟩ :=
  run_nonpositive_steps _ true () "task" "genprompt" "reflprompt" (-1) (by decide)

/-! ## `_call_model` response-text extraction

The client reply is one of the shapes `_call_model` distinguishes: an
attribute-style object (`resp.choices[0].message.content`), a mapping
(`resp["choices"][0]["message"]["content"]`), or anything else.  Every Python
object has a `str()` rendering, carried as `strRepr`.  An absent attribute or
key is `none` (in Python it raises `AttributeError` / `KeyError` /
`IndexError`, which the source catches and converts into falling through to
the next attempt); `message = none` also covers `getattr(choice, "message",
None)` returning an explicit `None`.  Per the spec's external-interface
contract the content fields, when present, are text. -/

/-- An attribute-style `message` object (its `.content` attribute may be
missing). -/
structure AttrMessage where
  content : Option String
deriving DecidableEq

/-- An attribute-style `choices[i]` object. -/
structure AttrChoice where
  message : Option AttrMessage
deriving DecidableEq

/-- A mapping-style `"message"` entry (its `"content"` key may be missing). -/
structure DictMessage where
  content : Option String
deriving DecidableEq

/-- A mapping-style `"choices"` entry. -/
structure DictChoice where
  message : Option DictMessage
deriving DecidableEq

/-- A reply from the ChatClient: attribute-style with an optional `choices`
attribute, dict-style with an optional `"choices"` key, or any other value. -/
inductive Reply where
  | attrStyle (choices : Option (List AttrChoice)) (strRepr : String)
  | dictStyle (choices : Option (List DictChoice)) (strRepr : String)
  | plain (strRepr : String)
deriving DecidableEq

/-- Python `str(resp)`. -/
def replyStr : Reply → String
  | .attrStyle _ r => r
  | .dictStyle _ r => r
  | .plain r => r

/-- The first `try` block of `_call_model`: `resp.choices[0]`, then
`getattr(choice, "message", None)`, then `content.content`.  `none` means the
block did not return (exception caught, or `message` was `None`). -/
def attrAttempt : Reply → Option String
  | .attrStyle (some choices) _ =>
      match choices.head? with
      | some choice =>
          match choice.message with
          | some msg => msg.content
          | none => none
      | none => none
  | _ => none

/-- The second `try` block of `_call_model`: `isinstance(resp, dict)` and
`resp["choices"][0]["message"]["content"]`. -/
def dictAttempt : Reply → Option String
  | .dictStyle (some choices) _ =>
      match choices.head? with
      | some choice =>
          match choice.message with
          | some msg => msg.content
          | none => none
      | none => none
  | _ => none

/-- `ReflectionAgent._call_model` (named `_call_model` in the source), after
the client call: attribute-style extraction, then dict-style extraction, then
the `str(resp)` fallback. -/
def call_model (resp : Reply) : String :=
  match attrAttempt resp with
  | some content => content
  | none =>
      match dictAttempt resp with
      | some content => content
      | none => replyStr resp

/-- Modelled from the spec: "the loop accepts either an attribute-path form
(`response.choices[0].message.content`) or a nested-mapping form
(`response["choices"][0]["message"]["content"]`), falling back to a string
coercion of the whole response if neither shape matches" — the text the spec
says is extracted when one of the two shapes matches. -/
def specExtractedText : Reply → Option String
  | .attrStyle (some (choice :: _)) _ => choice.message.bind (fun m => m.content)
  | .dictStyle (some (choice :: _)) _ => choice.message.bind (fun m => m.content)
  | _ => none

/-- C7: for every client reply, `_call_model` returns a string without
raising: the extracted attribute-path / nested-mapping content when one of
those shapes matches, and the stringified representation of the whole reply
otherwise. -/
theorem call_model_total_fallback (resp : Reply) :
    call_model resp = (specExtractedText resp).getD (replyStr resp) := by
  cases resp with
  | attrStyle choices r =>
      cases choices with
      | none => rfl
      | some cs =>
          cases cs with
          | nil => rfl
          | cons choice rest =>
              obtain ⟨msg⟩ := choice
              cases msg with
              | none => rfl
              | some m =>
                  obtain ⟨content⟩ := m
                  cases content <;> rfl
  | dictStyle choices r =>
      cases choices with
      | none => rfl
      | some cs =>
          cases cs with
          | nil => rfl
          | cons choice rest =>
              obtain ⟨msg⟩ := choice
              cases msg with
              | none => rfl
              | some m =>
                  obtain ⟨content⟩ := m
                  cases content <;> rfl
  | plain r => rfl

/-! ## The code verifier `verify_code`

A code payload is either a syntax error or a parsed statement tree.  The tree
carries the run-time behaviour `exec` gives it: a `functionDef` node carries
the function value (over the integer-list test inputs) it binds, a `classDef`
node carries the (callable) class value, and a `simple` statement carries its
effect on the module namespace (nothing, raising, or binding a name).  Bodies
of `functionDef`/`classDef` nodes and the statement children of compound
`simple` statements are kept because `ast.walk` descends into them. -/

/-- A Python value returned by a tested function, as far as the comparison
with the expected integer list can see it: an integer list, or some other
value (never equal to an integer list), carried with its `repr`. -/
inductive PyRet where
  | intList (xs : List Int)
  | other (reprStr : String)
deriving DecidableEq

/-- The outcome of calling a tested function on one input. -/
inductive CallResult where
  | ok (v : PyRet)
  | exc (msg : String) (tb : String)
deriving DecidableEq

/-- A value bound in the namespace produced by `exec`. -/
inductive NsVal where
  | callable (f : List Int → CallResult)
  | value

/-- The effect of executing one simple statement at module level. -/
inductive SimpleEffect where
  | noop
  | raises (msg : String) (tb : String)
  | assign (name : String) (v : NsVal)

/-- A statement of the parsed tree. -/
inductive PyStmt where
  | functionDef (name : String) (sem : List Int → CallResult) (body : List PyStmt)
  | classDef (name : String) (sem : List Int → CallResult) (body : List PyStmt)
  | simple (effect : SimpleEffect) (children : List PyStmt)

/-- A code payload handed to `verify_code`: a payload `ast.parse` rejects
(with the error text), or the parsed statement list of the module. -/
inductive PyCode where
  | invalid (errMsg : String)
  | valid (stmts : List PyStmt)

mutual

def stmtSize : PyStmt → Nat
  | .functionDef _ _ body => 1 + listSize body
  | .classDef _ _ body => 1 + listSize body
  | .simple _ children => 1 + listSize children

def listSize : List PyStmt → Nat
  | [] => 0
  | s :: rest => stmtSize s + listSize rest

end

theorem listSize_append (a b : List PyStmt) :
    listSize (a ++ b) = listSize a + listSize b := by
  induction a with
  | nil => simp [listSize]
  | cons s t ih =>
      simp only [List.cons_append, listSize, List.append_eq] at *
      omega

theorem stmtSize_pos (s : PyStmt) : 1 ≤ stmtSize s := by
  cases s <;> simp [stmtSize]

/-- The queue-driven breadth-first traversal of `ast.walk`, collecting
`FunctionDef` names: pop the front node, record it if it is a function
definition, and append its child statements to the back of the queue.  The
fuel counts queue pops; each pop removes exactly one node, so `listSize` of
the initial queue is exactly enough. -/
def funcNamesAux : Nat → List PyStmt → List String
  | _, [] => []
  | 0, _ :: _ => []
  | fuel + 1, s :: rest =>
      match s with
      | .functionDef n _ body => n :: funcNamesAux fuel (rest ++ body)
      | .classDef _ _ body => funcNamesAux fuel (rest ++ body)
      | .simple _ children => funcNamesAux fuel (rest ++ children)

/-- `[n.name for n in ast.walk(tree) if isinstance(n, ast.FunctionDef)]`:
all function-definition names in the tree, in `ast.walk`'s breadth-first
order. -/
def funcNamesBFS (stmts : List PyStmt) : List String :=
  funcNamesAux (listSize stmts) stmts

/-- The names of the top-level (module-level) function definitions, in source
order. -/
def topLevelFuncNames : List PyStmt → List String
  | [] => []
  | .functionDef n _ _ :: rest => n :: topLevelFuncNames rest
  | .classDef _ _ _ :: rest => topLevelFuncNames rest
  | .simple _ _ :: rest => topLevelFuncNames rest

/-- Namespace lookup, `ns.get(fn)`. -/
def lookupNs : List (String × NsVal) → String → Option NsVal
  | [], _ => none
  | (k, v) :: rest, n => if k = n then some v else lookupNs rest n

/-- Namespace update (dict assignment). -/
def updateNs : List (String × NsVal) → String → NsVal → List (String × NsVal)
  | [], k, v => [(k, v)]
  | (k', v') :: rest, k, v =>
      if k' = k then (k, v) :: rest else (k', v') :: updateNs rest k v

/-- The outcome of `exec(compile(code, "<generated>", "exec"), ns, ns)`. -/
inductive ExecOutcome where
  | raises (msg : String) (tb : String)
  | ok (ns : List (String × NsVal))

/-- Module-level execution: a `def` binds its name to the function value, a
`class` statement binds its name to the (callable) class value, a simple
statement applies its effect; bodies of `def`/`class` statements are not
executed at module level. -/
def execStmts : List PyStmt → List (String × NsVal) → ExecOutcome
  | [], ns => .ok ns
  | .functionDef n sem _ :: rest, ns => execStmts rest (updateNs ns n (.callable sem))
  | .classDef n sem _ :: rest, ns => execStmts rest (updateNs ns n (.callable sem))
  | .simple .noop _ :: rest, ns => execStmts rest ns
  | .simple (.raises m tb) _ :: _, _ => .raises m tb
  | .simple (.assign k v) _ :: rest, ns => execStmts rest (updateNs ns k v)

/-- Python `repr` of an integer list, as interpolated into error messages. -/
def reprIntList (l : List Int) : String :=
  "[" ++ String.intercalate ", " (l.map toString) ++ "]"

/-- Python `repr`/`str` of a returned value. -/
def reprRet : PyRet → String
  | .intList xs => reprIntList xs
  | .other r => r

/-- The result dict built by `verify_code`. -/
structure VerificationResult where
  syntax_ok : Bool
  tests_run : Nat
  tests_passed : Nat
  errors : List String
  function_tested : Option String
deriving DecidableEq

/-- The fixed battery of sorting test vectors, in the source's order. -/
def sortTests : List (List Int × List Int) :=
  [([3, 1, 2], [1, 2, 3]),
   ([], []),
   ([5, 4, 3, 2, 1], [1, 2, 3, 4, 5]),
   ([1], [1])]

/-- The test loop of `verify_code`: returns
`(tests_run, tests_passed, errors in test order)`. -/
def runTests (f : List Int → CallResult) :
    List (List Int × List Int) → Nat × Nat × List String
  | [] => (0, 0, [])
  | (inp, expected) :: rest =>
      let tailR := runTests f rest
      match f inp with
      | .ok out =>
          if out = .intList expected then
            (tailR.1 + 1, tailR.2.1 + 1, tailR.2.2)
          else
            (tailR.1 + 1, tailR.2.1,
             ("Test failed for input " ++ reprIntList inp ++ ": got " ++
              reprRet out ++ ", expected " ++ reprIntList expected) :: tailR.2.2)
      | .exc m tb =>
          (tailR.1 + 1, tailR.2.1,
           ("Exception when testing input " ++ reprIntList inp ++ ": " ++ m ++
            "\n" ++ tb) :: tailR.2.2)

/-- The part of `verify_code` from "Pick first function" on, given the
selected function name `fn`. -/
def verifyWithFn (stmts : List PyStmt) (fn : String) : VerificationResult :=
  let tests := if isSubL "sort".data (pyLowerL fn.data) then sortTests else []
  match execStmts stmts [] with
  | .raises m tb =>
      ⟨true, 0, 0, ["RuntimeError on exec: " ++ m ++ "\n" ++ tb], some fn⟩
  | .ok ns =>
      match lookupNs ns fn with
      | some (.callable f) =>
          let r := runTests f tests
          ⟨true, r.1, r.2.1, r.2.2, some fn⟩
      | _ =>
          ⟨true, 0, 0, ["Function " ++ fn ++ " not found after exec."], some fn⟩

/-- `ReflectionAgent.verify_code`: parse, collect function names via
`ast.walk`, pick the first, choose the sort-test battery when the name
contains `"sort"`, execute the payload, and run the tests. -/
def verify_code : PyCode → VerificationResult
  | .invalid errMsg => ⟨false, 0, 0, ["SyntaxError: " ++ errMsg], none⟩
  | .valid stmts =>
      match funcNamesBFS stmts with
      | [] => ⟨true, 0, 0, [], none⟩
      | fn :: _ => verifyWithFn stmts fn

/-! ### General facts about `verify_code` -/

theorem verify_code_valid_nil (stmts : List PyStmt)
    (h : funcNamesBFS stmts = []) :
    verify_code (.valid stmts) = ⟨true, 0, 0, [], none⟩ := by
  show (match funcNamesBFS stmts with
        | [] => (⟨true, 0, 0, [], none⟩ : VerificationResult)
        | fn :: _ => verifyWithFn stmts fn) = ⟨true, 0, 0, [], none⟩
  rw [h]

theorem verify_code_valid_cons (stmts : List PyStmt) (fn : String)
    (rest : List String) (h : funcNamesBFS stmts = fn :: rest) :
    verify_code (.valid stmts) = verifyWithFn stmts fn := by
  show (match funcNamesBFS stmts with
        | [] => (⟨true, 0, 0, [], none⟩ : VerificationResult)
        | fn :: _ => verifyWithFn stmts fn) = verifyWithFn stmts fn
  rw [h]

theorem verifyWithFn_callable (stmts : List PyStmt) (fn : String)
    (ns : List (String × NsVal)) (f : List Int → CallResult)
    (h2 : execStmts stmts [] = .ok ns)
    (h3 : lookupNs ns fn = some (.callable f)) :
    verifyWithFn stmts fn =
      ⟨true,
       (runTests f (if isSubL "sort".data (pyLowerL fn.data) then sortTests else [])).1,
       (runTests f (if isSubL "sort".data (pyLowerL fn.data) then sortTests else [])).2.1,
       (runTests f (if isSubL "sort".data (pyLowerL fn.data) then sortTests else [])).2.2,
       some fn⟩ := by
  simp only [verifyWithFn, h2, h3]

theorem verifyWithFn_function_tested (stmts : List PyStmt) (fn : String) :
    (verifyWithFn stmts fn).function_tested = some fn := by
  cases hex : execStmts stmts [] with
  | raises m tb => simp [verifyWithFn, hex]
  | ok ns =>
      cases hlk : lookupNs ns fn with
      | none => simp [verifyWithFn, hex, hlk]
      | some v =>
          cases v with
          | callable f => simp [verifyWithFn, hex, hlk]
          | value => simp [verifyWithFn, hex, hlk]

theorem topLevel_append (a b : List PyStmt) :
    topLevelFuncNames (a ++ b) = topLevelFuncNames a ++ topLevelFuncNames b := by
  induction a with
  | nil => rfl
  | cons s t ih => cases s <;> simp [topLevelFuncNames, ih]

theorem funcNamesAux_topLevel_isPre :
    ∀ (fuel : Nat) (q : List PyStmt), listSize q ≤ fuel →
      topLevelFuncNames q <+: funcNamesAux fuel q := by
  intro fuel
  induction fuel with
  | zero =>
      intro q hq
      cases q with
      | nil => simp [topLevelFuncNames, funcNamesAux]
      | cons s t =>
          exfalso
          have h1 := stmtSize_pos s
          simp [listSize] at hq
          omega
  | succ n ih =>
      intro q hq
      cases q with
      | nil => simp [topLevelFuncNames, funcNamesAux]
      | cons s t =>
          cases s with
          | functionDef nm sem body =>
              have hsz : listSize (t ++ body) ≤ n := by
                rw [listSize_append]
                simp [listSize, stmtSize] at hq
                omega
              have hpre := ih (t ++ body) hsz
              rw [topLevel_append] at hpre
              show nm :: topLevelFuncNames t <+: nm :: funcNamesAux n (t ++ body)
              exact List.cons_prefix_cons.mpr
                ⟨rfl, (List.prefix_append _ _).trans hpre⟩
          | classDef nm sem body =>
              have hsz : listSize (t ++ body) ≤ n := by
                rw [listSize_append]
                simp [listSize, stmtSize] at hq
                omega
              have hpre := ih (t ++ body) hsz
              rw [topLevel_append] at hpre
              show topLevelFuncNames t <+: funcNamesAux n (t ++ body)
              exact (List.prefix_append _ _).trans hpre
          | simple eff children =>
              have hsz : listSize (t ++ children) ≤ n := by
                rw [listSize_append]
                simp [listSize, stmtSize] at hq
                omega
              have hpre := ih (t ++ children) hsz
              rw [topLevel_append] at hpre
              show topLevelFuncNames t <+: funcNamesAux n (t ++ children)
              exact (List.prefix_append _ _).trans hpre

theorem runTests_accounting (f : List Int → CallResult)
    (tests : List (List Int × List Int)) :
    (runTests f tests).2.1 ≤ (runTests f tests).1 ∧
    (runTests f tests).2.2.length + (runTests f tests).2.1 = (runTests f tests).1 := by
  induction tests with
  | nil => exact ⟨le_rfl, rfl⟩
  | cons p rest ih =>
      obtain ⟨inp, expected⟩ := p
      obtain ⟨ih1, ih2⟩ := ih
      cases hf : f inp with
      | ok out =>
          by_cases hout : out = .intList expected
          · simp only [runTests, hf, if_pos hout]
            exact ⟨by omega, by omega⟩
          · simp only [runTests, hf, if_neg hout, List.length_cons]
            exact ⟨by omega, by omega⟩
      | exc m tb =>
          simp only [runTests, hf, List.length_cons]
          exact ⟨by omega, by omega⟩

/-! ### Concrete payloads -/

/-- Insert into a descending-sorted list. -/
def insertDesc (x : Int) : List Int → List Int
  | [] => [x]
  | y :: t => if y ≤ x then x :: y :: t else y :: insertDesc x t

/-- Sorting in descending order: the behaviour of
`sorted(arr, reverse=True)`. -/
def sortDesc : List Int → List Int
  | [] => []
  | x :: t => insertDesc x (sortDesc t)

/-- The function value of a `merge_sort` that returns its input sorted in
descending order. -/
def descSortSem : List Int → CallResult :=
  fun l => .ok (.intList (sortDesc l))

/-- A payload whose single top-level statement is
`def merge_sort(arr): return sorted(arr, reverse=True)`. -/
def descStmts : List PyStmt := [.functionDef "merge_sort" descSortSem []]

/-- The payload above, as handed to `verify_code`. -/
def descPayload : PyCode := .valid descStmts

/-- Calling a class value constructs an instance. -/
def classSem : List Int → CallResult := fun _ => .ok (.other "<instance>")

/-- The function value of a method; its behaviour is irrelevant because the
method name is never bound at module level. -/
def helperSem : List Int → CallResult := fun l => .ok (.intList l)

/-- `class C:` whose body holds only `def helper_sort(self): ...` — a payload
with no top-level function definitions but a nested one. -/
def nestedOnlyStmts : List PyStmt :=
  [.classDef "C" classSem [.functionDef "helper_sort" helperSem []]]

/-- The function value of `add_numbers` (called with an integer list it
returns some non-list value; it is never called by the verifier). -/
def addSem : List Int → CallResult := fun _ => .ok (.other "3")

/-- `def add_numbers(a, b): return a + b` followed by a top-level
`raise RuntimeError("boom")`. -/
def raisingStmts : List PyStmt :=
  [.functionDef "add_numbers" addSem [],
   .simple (.raises "boom" "Traceback (most recent call last): ...") []]

/-- `def add_numbers(a, b): return a + b` alone. -/
def addStmts : List PyStmt := [.functionDef "add_numbers" addSem []]

/-! ### Claims C1, C2, C3, C10 -/

/-- C1 counterexample: on a valid payload whose first (and only) declared
function is `merge_sort` returning its input sorted in descending order,
`verify_code` reports 2 passed tests and 2 mismatch errors — not 0 passed and
4 errors as claimed: the empty and singleton test vectors are invariant under
reversal, so a descending sort passes them. -/
theorem desc_merge_sort_counterexample :
    funcNamesBFS descStmts = ["merge_sort"] ∧
    (verify_code descPayload).syntax_ok = true ∧
    (verify_code descPayload).tests_run = 4 ∧
    (verify_code descPayload).tests_passed = 2 ∧
    (verify_code descPayload).errors.length = 2 ∧
    ¬((verify_code descPayload).tests_passed = 0) ∧
    ¬((verify_code descPayload).errors.length = 4) :=
  ⟨rfl, rfl, rfl, rfl, rfl, by decide, by decide⟩

/-- C1 (amended): for every syntactically valid payload whose first declared
function (in `ast.walk` order) is named `merge_sort` and — once the module is
executed — is bound to a callable returning its input sorted in descending
order, `verify_code` reports syntax_ok = true, tests_run = 4, tests_passed =
2 (the empty and singleton vectors pass), and records exactly the 2
descriptive mismatch errors for the 3-element and 5-element vectors. -/
theorem desc_merge_sort_passes_two (stmts : List PyStmt) (rest : List String)
    (ns : List (String × NsVal)) (f : List Int → CallResult)
    (h1 : funcNamesBFS stmts = "merge_sort" :: rest)
    (h2 : execStmts stmts [] = .ok ns)
    (h3 : lookupNs ns "merge_sort" = some (.callable f))
    (h4 : ∀ l, f l = .ok (.intList (sortDesc l))) :
    verify_code (.valid stmts) =
      ⟨true, 4, 2,
       ["Test failed for input [3, 1, 2]: got [3, 2, 1], expected [1, 2, 3]",
        "Test failed for input [5, 4, 3, 2, 1]: got [5, 4, 3, 2, 1], expected [1, 2, 3, 4, 5]"],
       some "merge_sort"⟩ := by
  have hf : f = fun l => CallResult.ok (.intList (sortDesc l)) := funext h4
  rw [verify_code_valid_cons stmts "merge_sort" rest h1,
      verifyWithFn_callable stmts "merge_sort" ns f h2 h3, hf]
  rfl

theorem desc_merge_sort_passes_two_witness :
    verify_code (.valid descStmts) =
      ⟨true, 4, 2,
       ["Test failed for input [3, 1, 2]: got [3, 2, 1], expected [1, 2, 3]",
        "Test failed for input [5, 4, 3, 2, 1]: got [5, 4, 3, 2, 1], expected [1, 2, 3, 4, 5]"],
       some "merge_sort"⟩ :=
  desc_merge_sort_passes_two descStmts []
    [("merge_sort", .callable descSortSem)] descSortSem rfl rfl rfl (fun _ => rfl)

/-- C2 counterexample: a payload whose only function definition is the method
`helper_sort` nested inside `class C:` has no top-level function definitions,
yet `verify_code` does not return the result as-is: `ast.walk` finds the
nested definition, selects it, and the run records a "not found after exec"
error. -/
theorem nested_only_function_counterexample :
    topLevelFuncNames nestedOnlyStmts = [] ∧
    funcNamesBFS nestedOnlyStmts = ["helper_sort"] ∧
    (verify_code (.valid nestedOnlyStmts)).syntax_ok = true ∧
    (verify_code (.valid nestedOnlyStmts)).tests_run = 0 ∧
    (verify_code (.valid nestedOnlyStmts)).errors =
      ["Function helper_sort not found after exec."] ∧
    (verify_code (.valid nestedOnlyStmts)).function_tested = some "helper_sort" :=
  ⟨rfl, rfl, rfl, rfl, rfl, rfl⟩

/-- C2 (amended): `verify_code` enumerates all function definitions found
anywhere in the parsed tree (nested definitions and methods included) in
`ast.walk`'s breadth-first order — the top-level definitions, in declaration
order, form a prefix of that enumeration — and selects the first name in that
order as the function under test; only when no function definition exists
anywhere does it return the result as-is with syntax_ok = true,
tests_run = 0 and no error. -/
theorem walk_enumeration_behavior (stmts : List PyStmt) :
    (funcNamesBFS stmts = [] →
        verify_code (.valid stmts) = ⟨true, 0, 0, [], none⟩) ∧
    (∀ fn rest, funcNamesBFS stmts = fn :: rest →
        (verify_code (.valid stmts)).function_tested = some fn) ∧
    topLevelFuncNames stmts <+: funcNamesBFS stmts := by
  refine ⟨fun h => verify_code_valid_nil stmts h, fun fn rest h => ?_,
    funcNamesAux_topLevel_isPre (listSize stmts) stmts le_rfl⟩
  rw [verify_code_valid_cons stmts fn rest h]
  exact verifyWithFn_function_tested stmts fn

theorem walk_enumeration_behavior_witness :
    (verify_code (.valid nestedOnlyStmts)).function_tested = some "helper_sort" ∧
    topLevelFuncNames nestedOnlyStmts <+: funcNamesBFS nestedOnlyStmts ∧
    verify_code (.valid ([] : List PyStmt)) = ⟨true, 0, 0, [], none⟩ :=
  ⟨(walk_enumeration_behavior nestedOnlyStmts).2.1 "helper_sort" [] rfl,
   (walk_enumeration_behavior nestedOnlyStmts).2.2,
   (walk_enumeration_behavior []).1 rfl⟩

/-- C3 counterexample: a valid payload whose first declared function is
`add_numbers` (no "sort" substring) but whose module body raises on
execution: `verify_code` still executes the payload, so it reports
tests_run = 0 but records a RuntimeError — not "no errors" as claimed. -/
theorem nonsort_exec_error_counterexample :
    funcNamesBFS raisingStmts = ["add_numbers"] ∧
    isSubL "sort".data (pyLowerL "add_numbers".data) = false ∧
    (verify_code (.valid raisingStmts)).syntax_ok = true ∧
    (verify_code (.valid raisingStmts)).tests_run = 0 ∧
    (verify_code (.valid raisingStmts)).tests_passed = 0 ∧
    (verify_code (.valid raisingStmts)).errors =
      ["RuntimeError on exec: boom\nTraceback (most recent call last): ..."] :=
  ⟨rfl, rfl, rfl, rfl, rfl, rfl⟩

/-- C3 (amended): for every syntactically valid payload whose selected (first
declared, in `ast.walk` order) function name does not contain "sort"
(case-insensitively), `verify_code` assigns zero test vectors; provided that
the module body executes without raising and the selected name is bound to a
callable, the result is a pure syntax-only pass: syntax_ok = true,
tests_run = 0, tests_passed = 0 and no errors. -/
theorem nonsort_syntax_only_verified (stmts : List PyStmt) (fn : String)
    (rest : List String) (ns : List (String × NsVal)) (f : List Int → CallResult)
    (h1 : funcNamesBFS stmts = fn :: rest)
    (h2 : isSubL "sort".data (pyLowerL fn.data) = false)
    (h3 : execStmts stmts [] = .ok ns)
    (h4 : lookupNs ns fn = some (.callable f)) :
    verify_code (.valid stmts) = ⟨true, 0, 0, [], some fn⟩ := by
  rw [verify_code_valid_cons stmts fn rest h1,
      verifyWithFn_callable stmts fn ns f h3 h4, h2]
  rfl

theorem nonsort_syntax_only_verified_witness :
    verify_code (.valid addStmts) = ⟨true, 0, 0, [], some "add_numbers"⟩ :=
  nonsort_syntax_only_verified addStmts "add_numbers" []
    [("add_numbers", .callable addSem)] addSem rfl rfl rfl rfl

/-- C10: every result of `verify_code` satisfies tests_passed ≤ tests_run;
and when the payload executes without error and the selected function is
callable, each test vector either passes or appends exactly one error, so the
number of recorded errors equals tests_run minus tests_passed. -/
theorem verify_code_test_accounting :
    (∀ code : PyCode,
        (verify_code code).tests_passed ≤ (verify_code code).tests_run) ∧
    (∀ (stmts : List PyStmt) (fn : String) (rest : List String)
        (ns : List (String × NsVal)) (f : List Int → CallResult),
        funcNamesBFS stmts = fn :: rest →
        execStmts stmts [] = .ok ns →
        lookupNs ns fn = some (.callable f) →
        (verify_code (.valid stmts)).errors.length +
            (verify_code (.valid stmts)).tests_passed =
          (verify_code (.valid stmts)).tests_run) := by
  constructor
  · intro code
    cases code with
    | invalid m => exact le_rfl
    | valid stmts =>
        cases hfn : funcNamesBFS stmts with
        | nil => rw [verify_code_valid_nil stmts hfn]
        | cons fn rest =>
            rw [verify_code_valid_cons stmts fn rest hfn]
            cases hex : execStmts stmts [] with
            | raises m tb => simp [verifyWithFn, hex]
            | ok ns =>
                cases hlk : lookupNs ns fn with
                | none => simp [verifyWithFn, hex, hlk]
                | some v =>
                    cases v with
                    | callable f =>
                        simp only [verifyWithFn, hex, hlk]
                        exact (runTests_accounting f _).1
                    | value => simp [verifyWithFn, hex, hlk]
  · intro stmts fn rest ns f h1 h2 h3
    rw [verify_code_valid_cons stmts fn rest h1,
        verifyWithFn_callable stmts fn ns f h2 h3]
    exact (runTests_accounting f _).2

theorem verify_code_test_accounting_witness :
    (verify_code (.valid descStmts)).tests_passed ≤
      (verify_code (.valid descStmts)).tests_run ∧
    (verify_code (.valid descStmts)).errors.length +
        (verify_code (.valid descStmts)).tests_passed =
      (verify_code (.valid descStmts)).tests_run :=
  ⟨verify_code_test_accounting.1 (.valid descStmts),
   verify_code_test_accounting.2 descStmts "merge_sort" []
     [("merge_sort", .callable descSortSem)] descSortSem rfl rfl rfl⟩

/-! ## `extract_code_blocks`

`CODE_BLOCK_RE = re.compile(r"```(?:python)?\s*(.*?)```", re.DOTALL |
re.IGNORECASE)` and `extract_code_blocks` strips each `findall` capture.  The
regex is embedded as a left-to-right scanner: at each position, an opening
fence followed (optionally) by a case-insensitive `python` tag, greedy
whitespace, and a lazy capture up to the nearest closing fence; on a failed
match the scan advances one character, as `findall` does. -/

/-- The backtick character (written via its code point, 96). -/
def btick : Char := Char.ofNat 96

/-- The triple-backtick fence. -/
def fenceL : List Char := [btick, btick, btick]

/-- `(?:python)?` under `re.IGNORECASE`: drop one leading case-insensitive
`python`, if present. -/
def dropPythonTag (l : List Char) : List Char :=
  if pyLowerL (l.take 6) = "python".data then l.drop 6 else l

/-- The lazy `(.*?)` up to the nearest closing fence: the capture and the
text after the closing fence, or `none` when no closing fence exists. -/
def splitAtFence : List Char → Option (List Char × List Char)
  | [] => none
  | c :: t =>
      if fenceL.isPrefixOf (c :: t) then some ([], (c :: t).drop 3)
      else
        match splitAtFence t with
        | some p => some (c :: p.1, p.2)
        | none => none

/-- The `findall` scan, fuelled by the input length (every step consumes at
least one character). -/
def scanAux : Nat → List Char → List (List Char)
  | _, [] => []
  | 0, _ :: _ => []
  | fuel + 1, c :: t =>
      if fenceL.isPrefixOf (c :: t) then
        match splitAtFence ((dropPythonTag ((c :: t).drop 3)).dropWhile pyIsSpace) with
        | some p => p.1 :: scanAux fuel p.2
        | none => scanAux fuel t
      else scanAux fuel t

/-- All captures of `CODE_BLOCK_RE.findall`, in source order. -/
def scanBlocksL (l : List Char) : List (List Char) := scanAux l.length l

/-- `ReflectionAgent.extract_code_blocks` on a character list:
`[m.strip() for m in CODE_BLOCK_RE.findall(text)]`. -/
def extract_code_blocksL (l : List Char) : List (List Char) :=
  (scanBlocksL l).map pyStripL

/-- `ReflectionAgent.extract_code_blocks`. -/
def extract_code_blocks (text : String) : List String :=
  (extract_code_blocksL text.data).map (fun l => String.mk l)

/-! ### Facts about the scan -/

theorem splitAtFence_length :
    ∀ (l : List Char) (p : List Char × List Char),
      splitAtFence l = some p → p.2.length + 3 ≤ l.length := by
  intro l
  induction l with
  | nil => intro p h; cases h
  | cons c t ih =>
      intro p h
      unfold splitAtFence at h
      by_cases hpre : fenceL.isPrefixOf (c :: t) = true
      · rw [if_pos hpre] at h
        obtain ⟨v, hv⟩ := (isPrefixOf_eq_true_iff _ _).mp hpre
        cases h
        have hlen : (c :: t).length = 3 + v.length := by
          rw [hv]
          simp only [fenceL, List.length_append, List.length_cons, List.length_nil]
        simp only [List.length_drop, hlen]
        omega
      · rw [if_neg hpre] at h
        cases hs : splitAtFence t with
        | none => rw [hs] at h; cases h
        | some q =>
            rw [hs] at h
            cases h
            have := ih q hs
            simp only [List.length_cons]
            omega

theorem length_dropPythonTag_le (l : List Char) :
    (dropPythonTag l).length ≤ l.length := by
  unfold dropPythonTag
  split
  · simp [List.length_drop]
  · exact le_rfl

theorem length_dropWhileSpace_le (l : List Char) :
    (l.dropWhile pyIsSpace).length ≤ l.length :=
  (List.dropWhile_sublist _).length_le

theorem scanAux_fuel_inv :
    ∀ (f1 : Nat) (l : List Char) (f2 : Nat),
      l.length ≤ f1 → l.length ≤ f2 → scanAux f1 l = scanAux f2 l := by
  intro f1
  induction f1 with
  | zero =>
      intro l f2 h1 _
      have : l = [] := List.length_eq_zero.mp (Nat.le_zero.mp h1)
      subst this
      cases f2 <;> rfl
  | succ n ih =>
      intro l f2 h1 h2
      cases l with
      | nil => cases f2 <;> rfl
      | cons c t =>
          cases f2 with
          | zero => simp at h2
          | succ m =>
              simp only [scanAux]
              by_cases hpre : fenceL.isPrefixOf (c :: t) = true
              · rw [if_pos hpre, if_pos hpre]
                have hchain :
                    ∀ p, splitAtFence
                        ((dropPythonTag ((c :: t).drop 3)).dropWhile pyIsSpace) = some p →
                      p.2.length ≤ t.length := by
                  intro p hp
                  have hb := splitAtFence_length _ _ hp
                  have hc1 := length_dropWhileSpace_le (dropPythonTag ((c :: t).drop 3))
                  have hc2 := length_dropPythonTag_le ((c :: t).drop 3)
                  have hc3 : ((c :: t).drop 3).length = (c :: t).length - 3 :=
                    List.length_drop 3 _
                  simp only [List.length_cons] at hc3
                  omega
                cases hs : splitAtFence
                    ((dropPythonTag ((c :: t).drop 3)).dropWhile pyIsSpace) with
                | none =>
                    exact ih t m (by simp at h1; omega) (by simp at h2; omega)
                | some p =>
                    have hp := hchain p hs
                    simp only [List.length_cons] at h1 h2
                    show p.1 :: scanAux n p.2 = p.1 :: scanAux m p.2
                    rw [ih p.2 m (by omega) (by omega)]
              · rw [if_neg hpre, if_neg hpre]
                simp only [List.length_cons] at h1 h2
                exact ih t m (by omega) (by omega)

theorem isPrefixOf_fence_false {c : Char} (t : List Char) (hc : ¬(c = btick)) :
    fenceL.isPrefixOf (c :: t) = false := by
  cases hpf : fenceL.isPrefixOf (c :: t)
  · rfl
  · exfalso
    obtain ⟨v, hv⟩ := (isPrefixOf_eq_true_iff _ _).mp hpf
    have : c = btick := (List.cons_eq_cons.mp (by simpa [fenceL] using hv)).1
    exact hc this

theorem isPrefixOf_fence_true (x : List Char) :
    fenceL.isPrefixOf (btick :: btick :: btick :: x) = true :=
  (isPrefixOf_eq_true_iff _ _).mpr ⟨x, by simp [fenceL]⟩

theorem scanBlocksL_cons_of_ne {c : Char} (t : List Char) (hc : ¬(c = btick)) :
    scanBlocksL (c :: t) = scanBlocksL t := by
  unfold scanBlocksL
  simp only [List.length_cons, scanAux, isPrefixOf_fence_false t hc,
    Bool.false_eq_true, if_false]

theorem scanBlocksL_append_noticks (pre r : List Char) (h : btick ∉ pre) :
    scanBlocksL (pre ++ r) = scanBlocksL r := by
  induction pre with
  | nil => rfl
  | cons c t ih =>
      have hc : ¬(c = btick) := fun hh => h (by simp [hh])
      rw [List.cons_append, scanBlocksL_cons_of_ne _ hc,
        ih (fun hx => h (List.mem_cons_of_mem c hx))]

theorem scanBlocksL_noticks (s : List Char) (h : btick ∉ s) :
    scanBlocksL s = [] := by
  have h0 := scanBlocksL_append_noticks s [] h
  rw [List.append_nil] at h0
  exact h0

theorem splitAtFence_clean (a r : List Char) (h : btick ∉ a) :
    splitAtFence (a ++ (fenceL ++ r)) = some (a, r) := by
  induction a with
  | nil =>
      rw [List.nil_append]
      show splitAtFence (fenceL ++ r) = some ([], r)
      rw [show fenceL ++ r = btick :: btick :: btick :: r by simp [fenceL]]
      unfold splitAtFence
      rw [if_pos (isPrefixOf_fence_true r)]
      rfl
  | cons c t ih =>
      have hc : ¬(c = btick) := fun hh => h (by simp [hh])
      have ht : btick ∉ t := fun hx => h (List.mem_cons_of_mem c hx)
      rw [List.cons_append]
      unfold splitAtFence
      rw [if_neg (by rw [isPrefixOf_fence_false _ hc]; exact Bool.false_ne_true),
        ih ht]

theorem pyLowerL_length (l : List Char) : (pyLowerL l).length = l.length := by
  unfold pyLowerL
  exact List.length_map l pyToLower

theorem dropPythonTag_boundary (a r : List Char) :
    dropPythonTag (a ++ (fenceL ++ r)) = dropPythonTag a ++ (fenceL ++ r) := by
  by_cases hlen : 6 ≤ a.length
  · unfold dropPythonTag
    rw [List.take_append_of_le_length hlen]
    split
    · exact List.drop_append_of_le_length hlen
    · rfl
  · have hmem : btick ∈ (a ++ (fenceL ++ r)).take 6 := by
      rw [List.take_append_eq_append_take, List.take_of_length_le (by omega)]
      apply List.mem_append.mpr
      right
      cases hk : 6 - a.length with
      | zero => omega
      | succ k =>
          rw [show fenceL ++ r = btick :: (btick :: btick :: r) by simp [fenceL],
            List.take_succ_cons]
          exact List.mem_cons_self _ _
    have h6 : ¬(pyLowerL ((a ++ (fenceL ++ r)).take 6) = "python".data) := by
      intro hcontra
      have hbt : btick ∈ "python".data := by
        rw [← hcontra]
        have hfix : pyToLower btick = btick := by decide
        exact hfix ▸ List.mem_map_of_mem pyToLower hmem
      exact absurd hbt (by decide)
    have h6a : ¬(pyLowerL (a.take 6) = "python".data) := by
      intro hcontra
      have hlena := congrArg List.length hcontra
      rw [pyLowerL_length, List.length_take] at hlena
      simp at hlena
      omega
    unfold dropPythonTag
    rw [if_neg h6, if_neg h6a]

theorem dropWhile_boundary (p : Char → Bool) (y : List Char) {b : Char}
    (z : List Char) (hb : p b = false) :
    (y ++ b :: z).dropWhile p = y.dropWhile p ++ b :: z := by
  induction y with
  | nil => simp [List.dropWhile_cons, hb]
  | cons c t ih =>
      by_cases hc : p c = true
      · simp [List.dropWhile_cons, hc, ih]
      · simp [List.dropWhile_cons, hc]

theorem mem_dropPythonTag {a : List Char} {c : Char}
    (h : c ∈ dropPythonTag a) : c ∈ a := by
  unfold dropPythonTag at h
  split at h
  · exact List.mem_of_mem_drop h
  · exact h

theorem mem_dropWhileSpace {a : List Char} {c : Char}
    (h : c ∈ a.dropWhile pyIsSpace) : c ∈ a :=
  (List.dropWhile_sublist _).mem h

theorem scanBlocksL_block (a r : List Char) (ha : btick ∉ a) :
    scanBlocksL (fenceL ++ (a ++ (fenceL ++ r))) =
      ((dropPythonTag a).dropWhile pyIsSpace) :: scanBlocksL r := by
  have ha1 : btick ∉ dropPythonTag a := fun hx => ha (mem_dropPythonTag hx)
  have ha2 : btick ∉ (dropPythonTag a).dropWhile pyIsSpace :=
    fun hx => ha1 (mem_dropWhileSpace hx)
  rw [show fenceL ++ (a ++ (fenceL ++ r)) =
      btick :: btick :: btick :: (a ++ (fenceL ++ r)) by simp [fenceL]]
  unfold scanBlocksL
  simp only [List.length_cons, scanAux]
  rw [if_pos (isPrefixOf_fence_true _)]
  rw [show (btick :: btick :: btick :: (a ++ (fenceL ++ r))).drop 3 =
      a ++ (fenceL ++ r) from rfl]
  rw [dropPythonTag_boundary a r]
  rw [show dropPythonTag a ++ (fenceL ++ r) =
      dropPythonTag a ++ btick :: (btick :: btick :: r) by simp [fenceL]]
  rw [dropWhile_boundary pyIsSpace _ _ (by decide)]
  rw [show (dropPythonTag a).dropWhile pyIsSpace ++ btick :: (btick :: btick :: r) =
      (dropPythonTag a).dropWhile pyIsSpace ++ (fenceL ++ r) by simp [fenceL]]
  rw [splitAtFence_clean _ r ha2]
  show ((dropPythonTag a).dropWhile pyIsSpace) ::
      scanAux ((a ++ (fenceL ++ r)).length + 2) r =
    ((dropPythonTag a).dropWhile pyIsSpace) :: scanBlocksL r
  rw [scanAux_fuel_inv ((a ++ (fenceL ++ r)).length + 2) r r.length
    (by simp [fenceL]; omega) le_rfl]
  rfl

theorem dropWhileSpace_dropWhileSpace (l : List Char) :
    (l.dropWhile pyIsSpace).dropWhile pyIsSpace = l.dropWhile pyIsSpace := by
  induction l with
  | nil => rfl
  | cons c t ih =>
      by_cases hc : pyIsSpace c = true
      · simp [List.dropWhile_cons, hc, ih]
      · simp [List.dropWhile_cons, hc]

theorem pyStripL_dropWhileSpace (l : List Char) :
    pyStripL (l.dropWhile pyIsSpace) = pyStripL l := by
  unfold pyStripL
  rw [dropWhileSpace_dropWhileSpace]

/-- C8: `extract_code_blocks` returns the ordered sequence of fenced-code
payloads between triple-backtick fences — the opening fence optionally
followed by the (case-insensitively matched) `python` language tag, payloads
spanning any characters including newlines and blank lines — each payload
trimmed of surrounding whitespace; two fenced blocks yield exactly their two
trimmed payloads in source order, and backtick-free input yields the empty
sequence. -/
theorem extract_code_blocks_spec :
    (∀ pre a mid b post : List Char,
        btick ∉ pre → btick ∉ a → btick ∉ mid → btick ∉ b → btick ∉ post →
        extract_code_blocksL
            (pre ++ fenceL ++ a ++ fenceL ++ mid ++ fenceL ++ b ++ fenceL ++ post) =
          [pyStripL (dropPythonTag a), pyStripL (dropPythonTag b)]) ∧
    (∀ s : List Char, btick ∉ s → extract_code_blocksL s = []) := by
  constructor
  · intro pre a mid b post hpre ha hmid hb hpost
    unfold extract_code_blocksL
    rw [show pre ++ fenceL ++ a ++ fenceL ++ mid ++ fenceL ++ b ++ fenceL ++ post =
        pre ++ (fenceL ++ (a ++ (fenceL ++ (mid ++ (fenceL ++ (b ++ (fenceL ++ post)))))))
      by simp [List.append_assoc]]
    rw [scanBlocksL_append_noticks pre _ hpre,
      scanBlocksL_block a _ ha,
      scanBlocksL_append_noticks mid _ hmid,
      scanBlocksL_block b _ hb,
      scanBlocksL_noticks post hpost]
    simp [pyStripL_dropWhileSpace]
  · intro s hs
    unfold extract_code_blocksL
    rw [scanBlocksL_noticks s hs]
    rfl

theorem extract_code_blocks_spec_witness :
    extract_code_blocksL
        ("hello ".data ++ fenceL ++ "python\ndef f(x):\n\n    return x\n".data ++
         fenceL ++ " mid ".data ++ fenceL ++ "Python code2".data ++ fenceL ++
         " end".data) =
      [pyStripL (dropPythonTag "python\ndef f(x):\n\n    return x\n".data),
       pyStripL (dropPythonTag "Python code2".data)] ∧
    extract_code_blocksL "no fences here".data = [] :=
  ⟨extract_code_blocks_spec.1 "hello ".data
      "python\ndef f(x):\n\n    return x\n".data " mid ".data
      "Python code2".data " end".data
      (by decide) (by decide) (by decide) (by decide) (by decide),
   extract_code_blocks_spec.2 "no fences here".data (by decide)⟩

end AutoCritique
